import Mathlib

/-!
Verification development for the semantic retrieval engine of a Slack
assistant.  The definitions below are a shallow embedding of the
TypeScript source: strings are modelled as `List Char` (JavaScript
UTF-16 code units; all characters used here are in the BMP), JavaScript
numbers are modelled as rationals where the code is exact arithmetic and
as reals where square roots occur, and the external embedding provider
is a parameter of the functions that call it.
-/

namespace ClawdBot

/-! ### Character classes (JavaScript regular-expression classes) -/

/-- JavaScript regex class `\s` (also the character set removed by
`String.prototype.trim`): space, tab, LF, VT, FF, CR, NBSP and the
Unicode white-space code points. -/
def isWs (c : Char) : Bool :=
  c = ' ' || c = '\t' || c = '\n' || c = '\r' || c.val = 11 || c.val = 12 ||
  c.val = 160 || c.val = 0x1680 || (0x2000 ≤ c.val && c.val ≤ 0x200a) ||
  c.val = 0x2028 || c.val = 0x2029 || c.val = 0x202f || c.val = 0x205f ||
  c.val = 0x3000 || c.val = 0xfeff

/-- JavaScript regex class `[A-Z0-9]` used in the Slack mention patterns. -/
def isMentionChar (c : Char) : Bool :=
  ('A' ≤ c && c ≤ 'Z') || ('0' ≤ c && c ≤ '9')

/-- JavaScript regex class `[a-z0-9_+-]` used in the emoji-code pattern. -/
def isEmojiChar (c : Char) : Bool :=
  ('a' ≤ c && c ≤ 'z') || ('0' ≤ c && c ≤ '9') || c = '_' || c = '+' || c = '-'

/-! ### Generic string helpers -/

/-- Strip the literal `post` from the front of `s`, returning the rest. -/
def stripLit : List Char → List Char → Option (List Char)
  | [], s => some s
  | _ :: _, [] => none
  | c :: cs, d :: ds => if c = d then stripLit cs ds else none

/-- Match a nonempty maximal run of characters satisfying `p` followed by
the literal `post`; returns the run and the remainder.  This is the shape
`X+L` of the regex fragments used by the source patterns, where the run
class `X` never contains the first character of `L`, so greedy matching
is deterministic. -/
def afterRunLit (p : Char → Bool) (post : List Char) (s : List Char) :
    Option (List Char × List Char) :=
  let run := s.takeWhile p
  if run.isEmpty then none
  else
    match stripLit post (s.dropWhile p) with
    | some rest => some (run, rest)
    | none => none


/-! ### The generic single-pass scanner

JavaScript `String.prototype.replace` with a `/g` regex scans the string
left to right: at each position it tries to match the regex; on a match
it emits the replacement and resumes immediately after the matched text,
otherwise it keeps the character and moves one position forward.  All
the source patterns match at least one character, so no empty-match rule
is needed.  The scanner is written with explicit fuel (an upper bound on
the number of steps) so that it is structurally recursive and evaluates
by `decide`; `scanReplace` instantiates the fuel with the length of the
string, which always suffices. -/

/-- One matcher step: given the current suffix, optionally return the
replacement text and the remainder after the matched portion. -/
abbrev Matcher := List Char → Option (List Char × List Char)

def scanReplaceF (m : Matcher) : Nat → List Char → List Char
  | 0, _ => []
  | _ + 1, [] => []
  | fuel + 1, c :: rest =>
    match m (c :: rest) with
    | some (r, t) => r ++ scanReplaceF m fuel t
    | none => c :: scanReplaceF m fuel rest

/-- Replace every left-to-right match of `m` in `s`. -/
def scanReplace (m : Matcher) (s : List Char) : List Char :=
  scanReplaceF m s.length s

/-- A matcher shrinks the string: the remainder after a match is shorter
than the input.  All matchers below satisfy this. -/
def Shrinking (m : Matcher) : Prop :=
  ∀ s r t, m s = some (r, t) → t.length < s.length


/-! ### The matchers for the six replacement patterns of `preprocessText` -/

/-- Regex `<@[A-Z0-9]+>`, replaced by `@user` (Slack user mention). -/
def matchUserMention : Matcher
  | '<' :: '@' :: s =>
    match afterRunLit isMentionChar ['>'] s with
    | some (_, rest) => some ("@user".toList, rest)
    | none => none
  | _ => none

/-- Regex `<#[A-Z0-9]+\|([^>]+)>`, replaced by `#$1` (named channel mention). -/
def matchChannelNamed : Matcher
  | '<' :: '#' :: s =>
    match afterRunLit isMentionChar ['|'] s with
    | some (_, s2) =>
      match afterRunLit (fun c => !(c = '>')) ['>'] s2 with
      | some (name, rest) => some ('#' :: name, rest)
      | none => none
    | none => none
  | _ => none

/-- Regex `<#[A-Z0-9]+>`, replaced by `#channel` (plain channel mention). -/
def matchChannelPlain : Matcher
  | '<' :: '#' :: s =>
    match afterRunLit isMentionChar ['>'] s with
    | some (_, rest) => some ("#channel".toList, rest)
    | none => none
  | _ => none

/-- Regex `<https?:\/\/[^>]+>`, replaced by `[link]` (bracketed URL). -/
def matchAngleLink : Matcher
  | '<' :: 'h' :: 't' :: 't' :: 'p' :: s =>
    match s with
    | 's' :: ':' :: '/' :: '/' :: s2 =>
      match afterRunLit (fun c => !(c = '>')) ['>'] s2 with
      | some (_, rest) => some ("[link]".toList, rest)
      | none => none
    | ':' :: '/' :: '/' :: s2 =>
      match afterRunLit (fun c => !(c = '>')) ['>'] s2 with
      | some (_, rest) => some ("[link]".toList, rest)
      | none => none
    | _ => none
  | _ => none

/-- Regex `https?:\/\/\S+`, replaced by `[link]` (bare URL; the greedy
`\S+` has no trailing literal, so the remainder is simply the rest after
the maximal nonempty run of non-whitespace characters). -/
def matchBareLink : Matcher
  | 'h' :: 't' :: 't' :: 'p' :: s =>
    match s with
    | 's' :: ':' :: '/' :: '/' :: s2 =>
      if (s2.takeWhile (fun c => !isWs c)).isEmpty then none
      else some ("[link]".toList, s2.dropWhile (fun c => !isWs c))
    | ':' :: '/' :: '/' :: s2 =>
      if (s2.takeWhile (fun c => !isWs c)).isEmpty then none
      else some ("[link]".toList, s2.dropWhile (fun c => !isWs c))
    | _ => none
  | _ => none

/-- Regex `:[a-z0-9_+-]+:`, replaced by the empty string (emoji code). -/
def matchEmoji : Matcher
  | ':' :: s =>
    match afterRunLit isEmojiChar [':'] s with
    | some (_, rest) => some ([], rest)
    | none => none
  | _ => none

/-- Regex `\s+`, replaced by a single space (whitespace collapsing). -/
def matchWsRun : Matcher
  | c :: rest => if isWs c then some ([' '], (c :: rest).dropWhile isWs) else none
  | [] => none


/-! ### The normalization pipeline (`preprocessText`, src/rag/embeddings) -/

def replaceUserMentions (s : List Char) : List Char :=
  scanReplace matchUserMention s

def replaceChannelNamed (s : List Char) : List Char :=
  scanReplace matchChannelNamed s

def replaceChannelPlain (s : List Char) : List Char :=
  scanReplace matchChannelPlain s

def replaceAngleLinks (s : List Char) : List Char :=
  scanReplace matchAngleLink s

def replaceBareLinks (s : List Char) : List Char :=
  scanReplace matchBareLink s

def removeEmojiCodes (s : List Char) : List Char :=
  scanReplace matchEmoji s

def collapseWs (s : List Char) : List Char :=
  scanReplace matchWsRun s

/-- JavaScript `String.prototype.trimEnd`: drop the trailing run of
whitespace characters. -/
def trimEnd : List Char → List Char
  | [] => []
  | c :: rest =>
    match trimEnd rest with
    | [] => if isWs c then [] else [c]
    | r => c :: r

/-- JavaScript `String.prototype.trim`: drop whitespace at both ends. -/
def trimList (s : List Char) : List Char :=
  trimEnd (s.dropWhile isWs)

/-- The normalization part of `preprocessText`: the six sequential regex
replacements followed by whitespace collapsing and trimming. -/
def normalizeText (text : List Char) : List Char :=
  let p1 := replaceUserMentions text
  let p2 := replaceChannelNamed p1
  let p3 := replaceChannelPlain p2
  let p4 := replaceAngleLinks p3
  let p5 := replaceBareLinks p4
  let p6 := removeEmojiCodes p5
  trimList (collapseWs p6)

/-- `preprocessText` from src/rag/embeddings: normalize, then drop very
short messages (fewer than 10 characters) by returning the empty string. -/
def preprocessText (text : List Char) : List Char :=
  let processed := normalizeText text
  if processed.length < 10 then [] else processed

/-! ### Occurrence predicate: does some suffix position match? -/

/-- `hasMatch m s` is true when the pattern recognised by `m` matches at
some position of `s`, i.e. when the corresponding JavaScript regex would
find at least one match in `s`. -/
def hasMatch (m : Matcher) : List Char → Bool
  | [] => (m []).isSome
  | c :: rest => (m (c :: rest)).isSome || hasMatch m rest

/-! ### Whitespace shape predicates for the output of normalization -/

/-- No two adjacent characters are both whitespace. -/
def noAdjWs : List Char → Bool
  | a :: b :: t => (!(isWs a && isWs b)) && noAdjWs (b :: t)
  | _ => true

/-- Every whitespace character is the plain space character. -/
def onlySpaces (s : List Char) : Bool :=
  s.all fun c => !isWs c || c = ' '

/-- No position of `s` matches any of the six normalization patterns. -/
def noResidualMarkup (s : List Char) : Bool :=
  !(hasMatch matchUserMention s || hasMatch matchChannelNamed s ||
    hasMatch matchChannelPlain s || hasMatch matchAngleLink s ||
    hasMatch matchBareLink s || hasMatch matchEmoji s)

/-! ### The embeddings module (src/rag/embeddings, Cohere version)

The external Cohere client is modelled as a parameter
`embed : List (List Char) → Except ProviderErr (List (List ℚ))`
standing for one `cohere.embed` call on a batch of texts.  A provider
failure carries a `ProviderErrKind` modelling which kind of JavaScript
error the SDK threw (network/rate-limit versus bad request); the
TypeScript `catch` block only ever reads `error.message`, which the
model mirrors.  Vector components are modelled as rationals (exact
JavaScript numbers are not needed by any claim about this module). -/

/-- The two provider-side failure categories named by the specification.
This tags the environment (what the SDK throw was), not the code. -/
inductive ProviderErrKind
  | providerUnavailable
  | malformedInput
  deriving DecidableEq

/-- An error raised by the modelled embedding provider. -/
structure ProviderErr where
  kind : ProviderErrKind
  message : List Char
  deriving DecidableEq

/-- A plain JavaScript `Error` value as thrown by `new Error(msg)`:
it carries only a message. -/
inductive JsErr
  | jsError (message : List Char)
  deriving DecidableEq

def EMBEDDING_DIMENSIONS : Nat := 1024
def MAX_BATCH_SIZE : Nat := 96
def RATE_LIMIT_DELAY_MS : Nat := 100

/-- The all-zero sentinel vector `new Array(EMBEDDING_DIMENSIONS).fill(0)`. -/
def zeroVec : List ℚ := List.replicate EMBEDDING_DIMENSIONS 0

/-- JavaScript test `!text || text.trim().length === 0`. -/
def isBlank (t : List Char) : Bool := t.isEmpty || (trimList t).isEmpty

/-- `createEmbedding` from src/rag/embeddings: the empty-text guard
returns the zero vector; otherwise one provider call on the single-text
batch, whose failure is rethrown as `Error("Embedding failed: " + msg)`.
`response.embeddings[0]` is modelled by `headD`. -/
def createEmbedding (embed : List (List Char) → Except ProviderErr (List (List ℚ)))
    (text : List Char) : Except JsErr (List ℚ) :=
  if text.isEmpty || (trimList text).isEmpty then
    .ok (List.replicate EMBEDDING_DIMENSIONS 0)
  else
    match embed [text] with
    | .ok response => .ok (response.headD [])
    | .error e => .error (.jsError ("Embedding failed: ".toList ++ e.message))

/-- The filtered, position-tagged texts
`texts.forEach((text, index) => if nonblank push {index, text})`. -/
def validTexts (texts : List (List Char)) : List (Nat × List Char) :=
  texts.enum.filter fun p => !isBlank p.2

/-- The batch partition `for (let i = 0; i < n; i += MAX_BATCH_SIZE)
slice(i, i + MAX_BATCH_SIZE)`, written with explicit fuel so that it is
structurally recursive. -/
def chunkListF {α : Type} : Nat → Nat → List α → List (List α)
  | 0, _, _ => []
  | _ + 1, _, [] => []
  | fuel + 1, n, x :: xs =>
    if n = 0 then []
    else ((x :: xs).take n) :: chunkListF fuel n ((x :: xs).drop n)

def chunkList {α : Type} (n : Nat) (l : List α) : List (List α) :=
  chunkListF l.length n l

/-- The batch loop of `createEmbeddings`: call the provider on each
batch in order, rethrowing a failure as
`Error("Batch embedding failed: " + msg)` and aborting; scatter each
answer onto the original indices; count one inter-batch sleep of
`RATE_LIMIT_DELAY_MS` after a batch exactly when further batches remain
(`i + MAX_BATCH_SIZE < validTexts.length`).  Returns the scatter
assignments and the number of sleeps performed. -/
def processBatches (embed : List (List Char) → Except ProviderErr (List (List ℚ))) :
    List (List (Nat × List Char)) → Except JsErr (List (Nat × List ℚ) × Nat)
  | [] => .ok ([], 0)
  | batch :: rest =>
    match embed (batch.map (·.2)) with
    | .error e => .error (.jsError ("Batch embedding failed: ".toList ++ e.message))
    | .ok embs =>
      match processBatches embed rest with
      | .error e => .error e
      | .ok (pairs, d) =>
        .ok ((batch.map (·.1)).zip embs ++ pairs,
             (if rest.isEmpty then 0 else 1) + d)

/-- Apply the scatter writes `results[originalIndex] = embedding` in
order to the `new Array(texts.length).fill(null)` accumulator. -/
def applyScatter (res : List (Option (List ℚ))) :
    List (Nat × List ℚ) → List (Option (List ℚ))
  | [] => res
  | (i, v) :: rest => applyScatter (res.set i (some v)) rest

/-- `createEmbeddings` from src/rag/embeddings, instrumented with the
count of inter-batch sleeps (second component).  Mirrors the source:
early return on no texts; zero vectors when every text is blank;
otherwise batched provider calls, scatter-back, and zero-filling of the
positions belonging to blank texts. -/
def createEmbeddingsT (embed : List (List Char) → Except ProviderErr (List (List ℚ)))
    (texts : List (List Char)) : Except JsErr (List (List ℚ) × Nat) :=
  if texts.length = 0 then .ok ([], 0)
  else
    let valid := validTexts texts
    if valid.length = 0 then
      .ok (texts.map fun _ => List.replicate EMBEDDING_DIMENSIONS 0, 0)
    else
      match processBatches embed (chunkList MAX_BATCH_SIZE valid) with
      | .error e => .error e
      | .ok (pairs, delays) =>
        let init : List (Option (List ℚ)) := texts.map fun _ => none
        let res := applyScatter init pairs
        .ok (res.map (fun o => o.getD (List.replicate EMBEDDING_DIMENSIONS 0)), delays)

/-- `createEmbeddings` as the caller sees it (sleep count projected away). -/
def createEmbeddings (embed : List (List Char) → Except ProviderErr (List (List ℚ)))
    (texts : List (List Char)) : Except JsErr (List (List ℚ)) :=
  (createEmbeddingsT embed texts).map Prod.fst

/-- The number of provider batches a call will use. -/
def numBatches (texts : List (List Char)) : Nat :=
  (chunkList MAX_BATCH_SIZE (validTexts texts)).length

/-! ### `cosineSimilarity` (src/rag/embeddings)

Vector components are modelled as real numbers (the JavaScript loop is
`dot += a[i]*b[i]; normA += a[i]*a[i]; normB += b[i]*b[i]` followed by
`Math.sqrt(normA) * Math.sqrt(normB)`).  The thrown dimension-mismatch
`Error` is modelled as the `Except` error branch. -/

def dotProduct (a b : List ℝ) : ℝ := (List.zipWith (· * ·) a b).sum

def sumSquares (a : List ℝ) : ℝ := (a.map fun x => x * x).sum

noncomputable def cosineSimilarity (a b : List ℝ) : Except (List Char) ℝ :=
  if a.length ≠ b.length then
    .error ("Vectors must have the same length".toList)
  else
    let dot := dotProduct a b
    let magnitude := Real.sqrt (sumSquares a) * Real.sqrt (sumSquares b)
    if magnitude = 0 then .ok 0 else .ok (dot / magnitude)

/-! ### The `search_knowledge_base` tool case (src/agents/agent.ts 380-409)

The Retriever `retrieve` lives in src/rag (outside the supplied
sources), so it is a parameter: a function of the query text, the
optional channel-name filter, the result limit and the similarity floor.
The model starts where the cited lines do, after the query/filter
cleanup: `searchQuery` and `channelNameFilter` are the already-cleaned
values.  Score formatting follows `(r.score * 100).toFixed(0)` with
JavaScript round-half-to-larger semantics. -/

structure RItem where
  formatted : List Char
  score : ℚ
  deriving DecidableEq

/-- Decimal digits of a natural number (JavaScript number-to-string for
the nonnegative integers used here). -/
def natToStr (n : Nat) : List Char := Nat.toDigits 10 n

def intToStr : Int → List Char
  | .ofNat n => natToStr n
  | .negSucc n => '-' :: natToStr (n + 1)

/-- JavaScript `x.toFixed(0)` rounding: the integer nearest to `x`, ties
to the larger integer. -/
def jsToFixed0 (q : ℚ) : Int := ⌊q + 1 / 2⌋

/-- One line `${i + 1}. ${r.formatted} (relevance: ${pct}%)`. -/
def formatLine (i : Nat) (r : RItem) : List Char :=
  natToStr (i + 1) ++ ". ".toList ++ r.formatted ++ " (relevance: ".toList ++
    intToStr (jsToFixed0 (r.score * 100)) ++ "%)".toList

/-- `results.map((r, i) => line).join('\n')`. -/
def formatResults (rs : List RItem) : List Char :=
  List.intercalate ['\n'] (rs.enum.map fun p => formatLine p.1 p.2)

/-- The out-of-scope fallback payload: `No results in #f, but found N
messages in other channels:` followed by the formatted list. -/
def fallbackMsg (f : List Char) (rs : List RItem) : List Char :=
  "No results in #".toList ++ f ++ ", but found ".toList ++
    natToStr rs.length ++ " messages in other channels:\n\n".toList ++
    formatResults rs

/-- `No relevant messages found for "q"[ in #f].` with JavaScript
truthiness on the filter (an empty-string filter prints nothing). -/
def noResultsMsg (q : List Char) (filt : Option (List Char)) : List Char :=
  "No relevant messages found for \"".toList ++ q ++ ['"'] ++
    (match filt with
     | some f => if f.isEmpty then [] else " in #".toList ++ f
     | none => []) ++ ['.']

/-- `Found N relevant messages:` followed by the formatted list. -/
def foundMsg (rs : List RItem) : List Char :=
  "Found ".toList ++ natToStr rs.length ++
    " relevant messages:\n\n".toList ++ formatResults rs

/-- JavaScript `(args.limit as number) || 10` (0 and absent are falsy). -/
def jsOrNat (o : Option Nat) (dflt : Nat) : Nat :=
  match o with
  | some n => if n = 0 then dflt else n
  | none => dflt

/-- The `case 'search_knowledge_base'` body from the cited lines: a
filtered retrieval at floor 0.3; on zero results with a truthy filter, a
second retrieval of the same query without the filter, reported as
coming from other channels when nonempty. -/
def searchKB (retrieve : List Char → Option (List Char) → Nat → ℚ → List RItem)
    (searchQuery : List Char) (channelNameFilter : Option (List Char))
    (limArg : Option Nat) : List Char :=
  let lim := jsOrNat limArg 10
  let results := retrieve searchQuery channelNameFilter lim (3 / 10)
  if results.isEmpty then
    match channelNameFilter with
    | some f =>
      if f.isEmpty then noResultsMsg searchQuery channelNameFilter
      else
        let broaderResults := retrieve searchQuery none lim (3 / 10)
        if broaderResults.isEmpty then noResultsMsg searchQuery channelNameFilter
        else fallbackMsg f broaderResults
    | none => noResultsMsg searchQuery channelNameFilter
  else foundMsg results


/-- Decidable equality of `Except` results, used to evaluate the model
on concrete inputs. -/
instance {ε α : Type} [DecidableEq ε] [DecidableEq α] : DecidableEq (Except ε α)
  | .ok a, .ok b => if h : a = b then .isTrue (by rw [h]) else .isFalse (by simp [h])
  | .error a, .error b =>
    if h : a = b then .isTrue (by rw [h]) else .isFalse (by simp [h])
  | .ok _, .error _ => .isFalse (by simp)
  | .error _, .ok _ => .isFalse (by simp)

/-! ## Theorems -/

/-! ### Basic facts about the scanner machinery -/

theorem stripLit_length_le :
    ∀ post s t, stripLit post s = some t → t.length ≤ s.length := by
  intro post
  induction post with
  | nil => intro s t h; simp [stripLit] at h; simp [h]
  | cons c cs ih =>
    intro s t h
    cases s with
    | nil => simp [stripLit] at h
    | cons d ds =>
      simp only [stripLit] at h
      split at h
      · exact Nat.le_trans (ih ds t h) (by simp)
      · exact absurd h (by simp)

theorem afterRunLit_some :
    ∀ {p post s run rest}, afterRunLit p post s = some (run, rest) →
      run = s.takeWhile p ∧ run ≠ [] ∧
        stripLit post (s.dropWhile p) = some rest := by
  intro p post s run rest h
  simp only [afterRunLit] at h
  split at h
  · exact absurd h (by simp)
  · next hne =>
    split at h
    · next w hw =>
      obtain ⟨h1, h2⟩ := Prod.mk.injEq .. ▸ Option.some.injEq .. ▸ h
      subst h1 h2
      exact ⟨rfl, by simpa [List.isEmpty_iff] using hne, hw⟩
    · exact absurd h (by simp)

theorem afterRunLit_length_lt {p post s run rest}
    (h : afterRunLit p post s = some (run, rest)) : rest.length < s.length := by
  obtain ⟨hrun, hne, hstrip⟩ := afterRunLit_some h
  have h1 : rest.length ≤ (s.dropWhile p).length := stripLit_length_le _ _ _ hstrip
  have h2 : (s.takeWhile p).length + (s.dropWhile p).length = s.length := by
    rw [← List.length_append, List.takeWhile_append_dropWhile]
  have h3 : 0 < (s.takeWhile p).length := by
    cases hrw : s.takeWhile p with
    | nil => exact absurd (hrun.trans hrw) hne
    | cons a l => simp
  omega

theorem scanReplaceF_congr {m : Matcher} (hm : Shrinking m) :
    ∀ f1 f2 s, s.length ≤ f1 → s.length ≤ f2 →
      scanReplaceF m f1 s = scanReplaceF m f2 s := by
  intro f1
  induction f1 with
  | zero =>
    intro f2 s h1 _
    have : s = [] := List.length_eq_zero.mp (Nat.le_zero.mp h1)
    subst this
    cases f2 <;> rfl
  | succ f1 ih =>
    intro f2 s h1 h2
    cases s with
    | nil => cases f2 <;> rfl
    | cons c rest =>
      cases f2 with
      | zero => simp at h2
      | succ f2 =>
        simp only [scanReplaceF]
        cases hmc : m (c :: rest) with
        | none =>
          have := ih f2 rest (by simpa using h1) (by simpa using h2)
          simp [this]
        | some p =>
          have hlt : p.2.length < rest.length + 1 := by
            simpa using hm _ _ _ hmc
          have hl1 : p.2.length ≤ f1 := by simp at h1; omega
          have hl2 : p.2.length ≤ f2 := by simp at h2; omega
          have := ih f2 p.2 hl1 hl2
          simp [this]

theorem scanReplace_nil (m : Matcher) : scanReplace m [] = [] := rfl

theorem scanReplace_match {m : Matcher} (hm : Shrinking m) {c rest r t}
    (h : m (c :: rest) = some (r, t)) :
    scanReplace m (c :: rest) = r ++ scanReplace m t := by
  have hlt : t.length < rest.length + 1 := by simpa using hm _ _ _ h
  simp only [scanReplace, List.length_cons, scanReplaceF, h]
  rw [scanReplaceF_congr hm rest.length t.length t (by omega) le_rfl]

theorem scanReplace_skip {m : Matcher} {c rest}
    (h : m (c :: rest) = none) :
    scanReplace m (c :: rest) = c :: scanReplace m rest := by
  simp only [scanReplace, List.length_cons, scanReplaceF, h]

/-! ### The matchers shrink their input -/

theorem dropWhile_length_le (p : Char → Bool) (l : List Char) :
    (l.dropWhile p).length ≤ l.length :=
  (List.dropWhile_sublist p).length_le

theorem matchUserMention_shrinking : Shrinking matchUserMention := by
  intro s r t h
  rw [matchUserMention.eq_def] at h
  split at h
  · split at h
    · next run rest harl =>
      obtain ⟨_, h2⟩ := Prod.mk.injEq .. ▸ Option.some.injEq .. ▸ h
      subst h2
      have := afterRunLit_length_lt harl
      simp only [List.length_cons]
      omega
    · exact absurd h (by simp)
  · exact absurd h (by simp)

theorem matchChannelNamed_shrinking : Shrinking matchChannelNamed := by
  intro s r t h
  rw [matchChannelNamed.eq_def] at h
  split at h
  · split at h
    · next run rest harl =>
      split at h
      · next name rest2 harl2 =>
        obtain ⟨_, h2⟩ := Prod.mk.injEq .. ▸ Option.some.injEq .. ▸ h
        subst h2
        have := afterRunLit_length_lt harl
        have := afterRunLit_length_lt harl2
        simp only [List.length_cons]
        omega
      · exact absurd h (by simp)
    · exact absurd h (by simp)
  · exact absurd h (by simp)

theorem matchChannelPlain_shrinking : Shrinking matchChannelPlain := by
  intro s r t h
  rw [matchChannelPlain.eq_def] at h
  split at h
  · split at h
    · next run rest harl =>
      obtain ⟨_, h2⟩ := Prod.mk.injEq .. ▸ Option.some.injEq .. ▸ h
      subst h2
      have := afterRunLit_length_lt harl
      simp only [List.length_cons]
      omega
    · exact absurd h (by simp)
  · exact absurd h (by simp)

theorem matchAngleLink_shrinking : Shrinking matchAngleLink := by
  intro s r t h
  rw [matchAngleLink.eq_def] at h
  split at h
  · split at h
    · split at h
      · next harl =>
        obtain ⟨_, h2⟩ := Prod.mk.injEq .. ▸ Option.some.injEq .. ▸ h
        subst h2
        have := afterRunLit_length_lt harl
        simp only [List.length_cons]
        omega
      · exact absurd h (by simp)
    · split at h
      · next harl =>
        obtain ⟨_, h2⟩ := Prod.mk.injEq .. ▸ Option.some.injEq .. ▸ h
        subst h2
        have := afterRunLit_length_lt harl
        simp only [List.length_cons]
        omega
      · exact absurd h (by simp)
    · exact absurd h (by simp)
  · exact absurd h (by simp)

theorem matchBareLink_shrinking : Shrinking matchBareLink := by
  intro s r t h
  rw [matchBareLink.eq_def] at h
  split at h
  · split at h
    · next s3 =>
      split at h
      · exact absurd h (by simp)
      · obtain ⟨_, h2⟩ := Prod.mk.injEq .. ▸ Option.some.injEq .. ▸ h
        subst h2
        have := dropWhile_length_le (fun c => !isWs c) s3
        simp only [List.length_cons]
        omega
    · next s3 =>
      split at h
      · exact absurd h (by simp)
      · obtain ⟨_, h2⟩ := Prod.mk.injEq .. ▸ Option.some.injEq .. ▸ h
        subst h2
        have := dropWhile_length_le (fun c => !isWs c) s3
        simp only [List.length_cons]
        omega
    · exact absurd h (by simp)
  · exact absurd h (by simp)

theorem matchEmoji_shrinking : Shrinking matchEmoji := by
  intro s r t h
  rw [matchEmoji.eq_def] at h
  split at h
  · split at h
    · next run rest harl =>
      obtain ⟨_, h2⟩ := Prod.mk.injEq .. ▸ Option.some.injEq .. ▸ h
      subst h2
      have := afterRunLit_length_lt harl
      simp only [List.length_cons]
      omega
    · exact absurd h (by simp)
  · exact absurd h (by simp)

theorem matchWsRun_shrinking : Shrinking matchWsRun := by
  intro s r t h
  rw [matchWsRun.eq_def] at h
  split at h
  · split at h
    · next c rest hws =>
      obtain ⟨_, h2⟩ := Prod.mk.injEq .. ▸ Option.some.injEq .. ▸ h
      subst h2
      rw [List.dropWhile_cons_of_pos (by simpa using hws)]
      have := dropWhile_length_le isWs rest
      simp only [List.length_cons]
      omega
    · exact absurd h (by simp)
  · exact absurd h (by simp)

theorem scanReplace_of_not_hasMatch {m : Matcher} :
    ∀ s, hasMatch m s = false → scanReplace m s = s := by
  intro s
  induction s with
  | nil => intro _; rfl
  | cons c rest ih =>
    intro h
    simp only [hasMatch, Bool.or_eq_false_iff] at h
    obtain ⟨h1, h2⟩ := h
    rw [scanReplace_skip (Option.not_isSome_iff_eq_none.mp (by simp [h1])), ih h2]

/-! ### Facts about `cosineSimilarity` -/

theorem sumSquares_nonneg (a : List ℝ) : 0 ≤ sumSquares a := by
  induction a with
  | nil => simp [sumSquares]
  | cons x a ih =>
    simp only [sumSquares, List.map_cons, List.sum_cons] at ih ⊢
    nlinarith [sq_nonneg x]

theorem dotProduct_self (a : List ℝ) : dotProduct a a = sumSquares a := by
  induction a with
  | nil => simp [dotProduct, sumSquares]
  | cons x a ih =>
    simp only [dotProduct, sumSquares, List.zipWith_cons_cons, List.map_cons,
      List.sum_cons] at ih ⊢
    rw [ih]

theorem dotProduct_comm (a b : List ℝ) : dotProduct a b = dotProduct b a := by
  unfold dotProduct
  rw [List.zipWith_comm (· * ·)]
  simp [mul_comm]

/-- The Cauchy-Schwarz inequality for the loop sums of the source
function (no length hypothesis is needed: `zipWith` stops at the shorter
list while the norms only grow with extra entries). -/
theorem dotProduct_sq_le :
    ∀ a b : List ℝ, dotProduct a b ^ 2 ≤ sumSquares a * sumSquares b := by
  intro a
  induction a with
  | nil => intro b; simp [dotProduct, sumSquares]
  | cons x a ih =>
    intro b
    cases b with
    | nil =>
      simp [dotProduct, sumSquares]
    | cons y b =>
      have hi := ih b
      have hA := sumSquares_nonneg a
      have hB := sumSquares_nonneg b
      simp only [dotProduct, sumSquares, List.zipWith_cons_cons, List.map_cons,
        List.sum_cons] at hi hA hB ⊢
      set d := (List.zipWith (· * ·) a b).sum with hd
      set sA := (a.map fun x => x * x).sum with hsA
      set sB := (b.map fun x => x * x).sum with hsB
      rcases eq_or_lt_of_le hB with hB0 | hBpos
      · have hd2 : d ^ 2 = 0 := le_antisymm (by nlinarith) (sq_nonneg d)
        have hd0 : d = 0 := by
          exact pow_eq_zero_iff (by norm_num : (2:ℕ) ≠ 0) |>.mp hd2
        rw [hd0, ← hB0]
        nlinarith [sq_nonneg x, sq_nonneg y, mul_nonneg hA (sq_nonneg y)]
      · nlinarith [sq_nonneg (x * sB - y * d),
          mul_nonneg (by nlinarith [sq_nonneg y] : (0:ℝ) ≤ y * y + sB)
            (sub_nonneg.mpr hi), hBpos]

theorem cosineSimilarity_of_ne {a b : List ℝ} (h : a.length ≠ b.length) :
    cosineSimilarity a b = .error ("Vectors must have the same length".toList) := by
  simp [cosineSimilarity, h]

theorem cosineSimilarity_of_eq {a b : List ℝ} (h : a.length = b.length) :
    cosineSimilarity a b =
      if Real.sqrt (sumSquares a) * Real.sqrt (sumSquares b) = 0 then .ok 0
      else .ok (dotProduct a b / (Real.sqrt (sumSquares a) * Real.sqrt (sumSquares b))) := by
  simp [cosineSimilarity, h]

/-! ### Claim theorems about `cosineSimilarity` -/

/-- C3: `cosineSimilarity` raises an error whenever its two argument
vectors have different lengths, and for equal-length vectors where
either argument has zero magnitude (zero sum of squares) it returns
exactly 0, never dividing by zero. -/
theorem cosineSimilarity_guards (a b c d : List ℝ)
    (hab : a.length ≠ b.length) (hcd : c.length = d.length)
    (hz : sumSquares c = 0 ∨ sumSquares d = 0) :
    cosineSimilarity a b = .error ("Vectors must have the same length".toList) ∧
      cosineSimilarity c d = .ok 0 := by
  refine ⟨cosineSimilarity_of_ne hab, ?_⟩
  rw [cosineSimilarity_of_eq hcd, if_pos]
  rcases hz with h | h <;> simp [h]

/-- Witness for C3 at the concrete vectors `[1]` versus `[1, 2]`
(mismatched lengths) and `[0]` versus `[5]` (zero magnitude). -/
theorem cosineSimilarity_guards_witness :
    cosineSimilarity [1] [1, 2] = .error ("Vectors must have the same length".toList) ∧
      cosineSimilarity [0] [5] = .ok 0 :=
  cosineSimilarity_guards [1] [1, 2] [0] [5] (by decide) (by decide)
    (Or.inl (by norm_num [sumSquares]))

/-- C4: for equal-length vectors `cosineSimilarity` computes cosine
similarity: orthogonal vectors (zero dot product, hence orthogonal unit
vectors in particular) yield 0, any non-zero vector paired with itself
yields 1, and every returned score lies in the interval from -1 to 1. -/
theorem cosineSimilarity_cosine (a b u v w : List ℝ) (r : ℝ)
    (huv : u.length = v.length) (hor : dotProduct u v = 0)
    (hw : sumSquares w ≠ 0) (hr : cosineSimilarity a b = .ok r) :
    cosineSimilarity u v = .ok 0 ∧ cosineSimilarity w w = .ok 1 ∧
      -1 ≤ r ∧ r ≤ 1 := by
  refine ⟨?_, ?_, ?_⟩
  · rw [cosineSimilarity_of_eq huv]
    split
    · rfl
    · rw [hor]; simp
  · have hmag : Real.sqrt (sumSquares w) * Real.sqrt (sumSquares w) = sumSquares w :=
      Real.mul_self_sqrt (sumSquares_nonneg w)
    rw [cosineSimilarity_of_eq rfl, if_neg (by rw [hmag]; exact hw),
      dotProduct_self, hmag, div_self hw]
  · by_cases hl : a.length = b.length
    · rw [cosineSimilarity_of_eq hl] at hr
      by_cases hm : Real.sqrt (sumSquares a) * Real.sqrt (sumSquares b) = 0
      · rw [if_pos hm] at hr
        obtain rfl : (0:ℝ) = r := by simpa using hr
        norm_num
      · rw [if_neg hm] at hr
        obtain rfl : dotProduct a b /
            (Real.sqrt (sumSquares a) * Real.sqrt (sumSquares b)) = r := by
          simpa using hr
        set mag := Real.sqrt (sumSquares a) * Real.sqrt (sumSquares b) with hmag
        have hmnn : 0 ≤ mag := mul_nonneg (Real.sqrt_nonneg _) (Real.sqrt_nonneg _)
        have hmpos : 0 < mag := lt_of_le_of_ne hmnn (Ne.symm hm)
        have hmagsq : mag ^ 2 = sumSquares a * sumSquares b := by
          rw [hmag, mul_pow, Real.sq_sqrt (sumSquares_nonneg a),
            Real.sq_sqrt (sumSquares_nonneg b)]
        have hcs := dotProduct_sq_le a b
        have h1 : dotProduct a b ≤ mag := by nlinarith
        have h2 : -mag ≤ dotProduct a b := by nlinarith
        constructor
        · rw [le_div_iff₀ hmpos]; linarith
        · rw [div_le_one hmpos]; exact h1
    · rw [cosineSimilarity_of_ne hl] at hr
      exact absurd hr (by simp)

/-- Witness for C4 at the orthogonal unit vectors `[1, 0]` and `[0, 1]`,
the non-zero vector `[3]`, and the self-similarity score 1. -/
theorem cosineSimilarity_cosine_witness :
    cosineSimilarity [1, 0] [0, 1] = .ok 0 ∧ cosineSimilarity [3] [3] = .ok 1 ∧
      (-1 : ℝ) ≤ 1 ∧ (1 : ℝ) ≤ 1 :=
  cosineSimilarity_cosine [3] [3] [1, 0] [0, 1] [3] 1 (by decide)
    (by norm_num [dotProduct]) (by norm_num [sumSquares])
    (by
      have h9 : sumSquares [(3:ℝ)] = 9 := by norm_num [sumSquares]
      have hmag : Real.sqrt (sumSquares [(3:ℝ)]) * Real.sqrt (sumSquares [(3:ℝ)])
          = sumSquares [(3:ℝ)] := Real.mul_self_sqrt (sumSquares_nonneg _)
      rw [cosineSimilarity_of_eq rfl, if_neg (by rw [hmag, h9]; norm_num),
        dotProduct_self, hmag, h9]
      norm_num)

/-- C10: `cosineSimilarity` is commutative on equal-length vectors. -/
theorem cosineSimilarity_comm (a b : List ℝ) (h : a.length = b.length) :
    cosineSimilarity a b = cosineSimilarity b a := by
  rw [cosineSimilarity_of_eq h, cosineSimilarity_of_eq h.symm, dotProduct_comm,
    mul_comm (Real.sqrt (sumSquares a))]

/-- Witness for C10 at the concrete vectors `[1, 2]` and `[3, 4]`. -/
theorem cosineSimilarity_comm_witness :
    cosineSimilarity [1, 2] [3, 4] = cosineSimilarity [3, 4] [1, 2] :=
  cosineSimilarity_comm [1, 2] [3, 4] (by decide)

/-! ### Claim theorem C1: the too-short and empty-text guards -/

/-- C1: whenever the normalized form of a text is shorter than the
minimum length 10, `preprocessText` returns the empty string; and
`createEmbedding` on an empty or whitespace-only string returns the
1024-entry all-zero sentinel vector without calling the provider or
raising an error. -/
theorem preprocess_short_and_empty_guard (s t : List Char)
    (embed : List (List Char) → Except ProviderErr (List (List ℚ)))
    (h1 : (normalizeText s).length < 10) (h2 : t = [] ∨ trimList t = []) :
    preprocessText s = [] ∧
      createEmbedding embed t = .ok (List.replicate 1024 0) := by
  constructor
  · simp [preprocessText, h1]
  · have hc : (t.isEmpty || (trimList t).isEmpty) = true := by
      rcases h2 with h | h <;> simp [h]
    unfold createEmbedding
    rw [if_pos hc]
    rfl

/-- Witness for C1 at the short text `hi` and the whitespace-only text
consisting of a single space, with a provider that would fail if called. -/
theorem preprocess_short_and_empty_guard_witness :
    preprocessText "hi".toList = [] ∧
      createEmbedding (fun _ => .error ⟨.providerUnavailable, []⟩) " ".toList
        = .ok (List.replicate 1024 0) :=
  preprocess_short_and_empty_guard "hi".toList " ".toList
    (fun _ => .error ⟨.providerUnavailable, []⟩) (by decide) (Or.inr (by decide))

/-! ### Claim theorem C6: the out-of-scope fallback of
`search_knowledge_base` -/

/-- C6: when the channel-filtered knowledge-base search yields zero
results, the tool re-runs the same query without the filter, and when
that unfiltered search returns results the returned payload is the
fallback message, which explicitly states that the results come from
other channels instead of presenting them as in-scope. -/
theorem searchKB_fallback
    (retrieve : List Char → Option (List Char) → Nat → ℚ → List RItem)
    (q f : List Char) (limArg : Option Nat) (hf : f ≠ [])
    (h1 : retrieve q (some f) (jsOrNat limArg 10) (3 / 10) = [])
    (h2 : retrieve q none (jsOrNat limArg 10) (3 / 10) ≠ []) :
    searchKB retrieve q (some f) limArg
        = fallbackMsg f (retrieve q none (jsOrNat limArg 10) (3 / 10)) ∧
      ∃ u v, searchKB retrieve q (some f) limArg
        = u ++ " messages in other channels:".toList ++ v := by
  have hmain : searchKB retrieve q (some f) limArg
      = fallbackMsg f (retrieve q none (jsOrNat limArg 10) (3 / 10)) := by
    unfold searchKB
    rw [if_pos (by simp [h1])]
    have hfe : f.isEmpty = false := by simpa [List.isEmpty_iff] using hf
    have hbe : (retrieve q none (jsOrNat limArg 10) (3 / 10)).isEmpty = false := by
      simpa [List.isEmpty_iff] using h2
    simp [hfe, hbe]
  refine ⟨hmain, ?_⟩
  refine ⟨"No results in #".toList ++ f ++ ", but found ".toList ++
    natToStr (retrieve q none (jsOrNat limArg 10) (3 / 10)).length,
    "\n\n".toList ++ formatResults (retrieve q none (jsOrNat limArg 10) (3 / 10)), ?_⟩
  rw [hmain]
  unfold fallbackMsg
  simp only [List.append_assoc]
  rfl

/-- Witness for C6 with a concrete retriever that has no results for the
`eng` scope but two results without the filter. -/
theorem searchKB_fallback_witness :
    searchKB
        (fun _ flt _ _ => if flt.isSome then []
          else [⟨"we chose Redis".toList, 9 / 10⟩])
        "database decision".toList (some "eng".toList) none
      = fallbackMsg "eng".toList [⟨"we chose Redis".toList, 9 / 10⟩] ∧
      ∃ u v, searchKB
        (fun _ flt _ _ => if flt.isSome then []
          else [⟨"we chose Redis".toList, 9 / 10⟩])
        "database decision".toList (some "eng".toList) none
      = u ++ " messages in other channels:".toList ++ v :=
  searchKB_fallback
    (fun _ flt _ _ => if flt.isSome then []
      else [⟨"we chose Redis".toList, 9 / 10⟩])
    "database decision".toList "eng".toList none (by decide) (by decide) (by decide)

/-! ### Facts about the batch partition -/

theorem chunkListF_congr {α : Type} :
    ∀ (f1 f2 n : Nat) (l : List α), l.length ≤ f1 → l.length ≤ f2 →
      chunkListF f1 n l = chunkListF f2 n l := by
  intro f1
  induction f1 with
  | zero =>
    intro f2 n l h1 _
    have : l = [] := List.length_eq_zero.mp (Nat.le_zero.mp h1)
    subst this
    cases f2 <;> rfl
  | succ f1 ih =>
    intro f2 n l h1 h2
    cases l with
    | nil => cases f2 <;> rfl
    | cons x xs =>
      cases f2 with
      | zero => simp at h2
      | succ f2 =>
        simp only [chunkListF]
        by_cases hn : n = 0
        · simp [hn]
        · rw [if_neg hn, if_neg hn]
          congr 1
          have hd : ((x :: xs).drop n).length = xs.length + 1 - n := by simp
          apply ih
          · simp only [List.length_cons] at h1
            omega
          · simp only [List.length_cons] at h2
            omega

theorem chunkList_cons {α : Type} (n : Nat) (hn : 0 < n) (x : α) (xs : List α) :
    chunkList n (x :: xs) = (x :: xs).take n :: chunkList n ((x :: xs).drop n) := by
  unfold chunkList
  simp only [List.length_cons, chunkListF, if_neg (Nat.pos_iff_ne_zero.mp hn)]
  congr 1
  apply chunkListF_congr
  · simp only [List.length_drop, List.length_cons]
    omega
  · exact le_rfl

theorem chunkList_join_aux {α : Type} (n : Nat) (hn : 0 < n) :
    ∀ (N : Nat) (l : List α), l.length ≤ N → (chunkList n l).flatten = l := by
  intro N
  induction N with
  | zero =>
    intro l h
    have : l = [] := List.length_eq_zero.mp (Nat.le_zero.mp h)
    subst this
    rfl
  | succ N ih =>
    intro l h
    cases l with
    | nil => rfl
    | cons x xs =>
      rw [chunkList_cons n hn, List.flatten_cons,
        ih ((x :: xs).drop n) (by simp only [List.length_drop, List.length_cons] at h ⊢; omega),
        List.take_append_drop]

theorem chunkList_flatten {α : Type} (n : Nat) (hn : 0 < n) (l : List α) :
    (chunkList n l).flatten = l :=
  chunkList_join_aux n hn l.length l le_rfl

theorem chunkList_len_aux {α : Type} (n : Nat) :
    ∀ (N : Nat) (l : List α), l.length ≤ N →
      ∀ b ∈ chunkList n l, b.length ≤ n := by
  intro N
  induction N with
  | zero =>
    intro l h
    have : l = [] := List.length_eq_zero.mp (Nat.le_zero.mp h)
    subst this
    intro b hb
    simp [chunkList, chunkListF] at hb
  | succ N ih =>
    intro l h b hb
    cases l with
    | nil => simp [chunkList, chunkListF] at hb
    | cons x xs =>
      by_cases hn : 0 < n
      · rw [chunkList_cons n hn] at hb
        rcases List.mem_cons.mp hb with hb | hb
        · subst hb
          simp only [List.length_take]
          omega
        · exact ih ((x :: xs).drop n)
            (by simp only [List.length_drop, List.length_cons] at h ⊢; omega) b hb
      · have : n = 0 := by omega
        subst this
        simp [chunkList, chunkListF] at hb

theorem chunkList_length_le {α : Type} (n : Nat) (l : List α) :
    ∀ b ∈ chunkList n l, b.length ≤ n :=
  chunkList_len_aux n l.length l le_rfl

/-! ### Claim theorem C5 (amended): provider failures abort the whole
call, but the rethrown error is a plain message-wrapped `Error` -/

/-- C5 amended: any provider-call failure inside `createEmbedding` or
`createEmbeddings` aborts the entire operation with no partial results;
the raised error is a generic `Error` whose message is the provider
message behind a fixed prefix, and it does not carry an error kind.  The
text `t` is non-blank and some text of `texts` is non-blank, so the
provider is actually consulted. -/
theorem embeddings_failure_aborts (k : ProviderErrKind) (msg t : List Char)
    (texts : List (List Char)) (ht : isBlank t = false)
    (hne : ∃ x ∈ texts, isBlank x = false) :
    createEmbedding (fun _ => .error ⟨k, msg⟩) t
        = .error (.jsError ("Embedding failed: ".toList ++ msg)) ∧
      createEmbeddings (fun _ => .error ⟨k, msg⟩) texts
        = .error (.jsError ("Batch embedding failed: ".toList ++ msg)) := by
  constructor
  · unfold isBlank at ht
    unfold createEmbedding
    rw [if_neg (by simp [ht])]
  · obtain ⟨x, hx, hxb⟩ := hne
    have htx : ¬ texts.length = 0 := by
      rw [List.length_eq_zero]
      rintro rfl
      simp at hx
    have hvne : validTexts texts ≠ [] := by
      obtain ⟨i, hi, hget⟩ := List.getElem_of_mem hx
      have henum : (i, x) ∈ texts.enum :=
        List.mk_mem_enum_iff_getElem?.mpr (by simp [List.getElem?_eq_getElem, hi, hget])
      have hmem : (i, x) ∈ validTexts texts := by
        unfold validTexts
        rw [List.mem_filter]
        exact ⟨henum, by simp [hxb]⟩
      intro h
      rw [h] at hmem
      simp at hmem
    obtain ⟨v, vs, hvv⟩ := List.exists_cons_of_ne_nil hvne
    unfold createEmbeddings createEmbeddingsT
    rw [if_neg htx]
    simp only [hvv, List.length_cons, chunkList_cons MAX_BATCH_SIZE (by decide) v vs,
      processBatches]
    simp [Except.map]

/-- Counterexample for C5 as stated: two provider failures of the two
different kinds named by the claim (provider unavailable versus
malformed input) with the same SDK message produce byte-for-byte
identical errors from `createEmbeddings`, so the raised error carries no
kind a caller could use to decide whether to retry. -/
theorem embeddings_error_kind_indistinguishable :
    createEmbeddings (fun _ => .error ⟨.providerUnavailable, "boom".toList⟩)
        ["hello world".toList]
      = createEmbeddings (fun _ => .error ⟨.malformedInput, "boom".toList⟩)
        ["hello world".toList] ∧
    createEmbeddings (fun _ => .error ⟨.providerUnavailable, "boom".toList⟩)
        ["hello world".toList]
      = .error (.jsError "Batch embedding failed: boom".toList) := by
  constructor
  · rfl
  · rfl

/-- Witness for the amended C5 theorem at a concrete failing provider. -/
theorem embeddings_failure_aborts_witness :
    createEmbedding (fun _ => .error ⟨.providerUnavailable, "down".toList⟩)
        "hello world".toList
      = .error (.jsError ("Embedding failed: ".toList ++ "down".toList)) ∧
      createEmbeddings (fun _ => .error ⟨.providerUnavailable, "down".toList⟩)
        ["hello world".toList]
      = .error (.jsError ("Batch embedding failed: ".toList ++ "down".toList)) :=
  embeddings_failure_aborts .providerUnavailable "down".toList
    "hello world".toList ["hello world".toList] (by decide)
    ⟨"hello world".toList, by decide, by decide⟩

/-! ### Claim theorem C8: the inter-batch delay count -/

theorem processBatches_delays
    (embed : List (List Char) → Except ProviderErr (List (List ℚ))) :
    ∀ chunks pairs d, processBatches embed chunks = .ok (pairs, d) →
      d = chunks.length - 1 := by
  intro chunks
  induction chunks with
  | nil =>
    intro pairs d h
    simp only [processBatches, Except.ok.injEq, Prod.mk.injEq] at h
    simp only [List.length_nil]
    omega
  | cons batch rest ih =>
    intro pairs d h
    simp only [processBatches] at h
    cases hE : embed (batch.map (·.2)) with
    | error e => rw [hE] at h; exact absurd h (by simp)
    | ok embs =>
      rw [hE] at h
      cases hP : processBatches embed rest with
      | error e => rw [hP] at h; exact absurd h (by simp)
      | ok pd =>
        obtain ⟨p', d'⟩ := pd
        rw [hP] at h
        simp only [Except.ok.injEq, Prod.mk.injEq] at h
        obtain ⟨-, hd⟩ := h
        have hrec := ih p' d' hP
        cases rest with
        | nil =>
          simp at hrec hd ⊢
          omega
        | cons r rs =>
          simp at hd hrec ⊢
          omega

/-- C8: the fixed inter-batch rate-limit delay (of `RATE_LIMIT_DELAY_MS`
= 100 ms) is performed only between consecutive provider batches: a
successful call performs exactly `max(0, numberOfBatches - 1)` delays
(natural-number subtraction), so no delay precedes the first batch and a
single-batch call sleeps not at all. -/
theorem interBatchDelays
    (embed : List (List Char) → Except ProviderErr (List (List ℚ)))
    (texts : List (List Char)) (res : List (List ℚ)) (d : Nat)
    (h : createEmbeddingsT embed texts = .ok (res, d)) :
    d = numBatches texts - 1 := by
  simp only [createEmbeddingsT] at h
  split at h
  · next hlen =>
    obtain ⟨-, hd⟩ := Prod.mk.injEq .. ▸ Except.ok.injEq .. ▸ h
    have : texts = [] := List.length_eq_zero.mp hlen
    subst this
    simp [numBatches, validTexts, chunkList, chunkListF]
    omega
  · split at h
    · next hvlen =>
      obtain ⟨-, hd⟩ := Prod.mk.injEq .. ▸ Except.ok.injEq .. ▸ h
      have : validTexts texts = [] := List.length_eq_zero.mp hvlen
      simp [numBatches, this, chunkList, chunkListF]
      omega
    · split at h
      · exact absurd h (by simp)
      · next pairs delays hPB =>
        obtain ⟨-, hd⟩ := Prod.mk.injEq .. ▸ Except.ok.injEq .. ▸ h
        subst hd
        exact processBatches_delays embed _ pairs delays hPB

/-- Witness for C8: a single-batch call (two short non-blank texts)
performs zero delays, and `numBatches - 1 = 0`. -/
theorem interBatchDelays_witness :
    createEmbeddingsT (fun ts => .ok (ts.map fun _ => []))
        ["hello world".toList, "deploy failed".toList] = .ok ([[], []], 0) ∧
      (0 : Nat) = numBatches ["hello world".toList, "deploy failed".toList] - 1 :=
  ⟨by decide,
    interBatchDelays (fun ts => .ok (ts.map fun _ => []))
      ["hello world".toList, "deploy failed".toList] [[], []] 0 (by decide)⟩

/-! ### Claim theorem C2: batching and scatter-back of `createEmbeddings` -/

theorem applyScatter_length :
    ∀ (pairs : List (Nat × List ℚ)) (res : List (Option (List ℚ))),
      (applyScatter res pairs).length = res.length := by
  intro pairs
  induction pairs with
  | nil => intro res; rfl
  | cons p rest ih =>
    intro res
    obtain ⟨i, v⟩ := p
    simp only [applyScatter, ih, List.length_set]

theorem applyScatter_getElem_of_ne (j : Nat) :
    ∀ (pairs : List (Nat × List ℚ)) (res : List (Option (List ℚ))),
      (∀ p ∈ pairs, p.1 ≠ j) → (applyScatter res pairs)[j]? = res[j]? := by
  intro pairs
  induction pairs with
  | nil => intro res _; rfl
  | cons p rest ih =>
    intro res h
    obtain ⟨i, v⟩ := p
    have hij : i ≠ j := h (i, v) (List.mem_cons_self ..)
    simp only [applyScatter]
    rw [ih _ fun q hq => h q (List.mem_cons_of_mem _ hq)]
    exact List.getElem?_set_ne hij

theorem applyScatter_getElem_of_mem (j : Nat) (v : List ℚ) :
    ∀ (pairs : List (Nat × List ℚ)) (res : List (Option (List ℚ))),
      pairs.Pairwise (fun p q => p.1 ≠ q.1) → (j, v) ∈ pairs →
      j < res.length → (applyScatter res pairs)[j]? = some (some v) := by
  intro pairs
  induction pairs with
  | nil => intro res _ hm; simp at hm
  | cons p rest ih =>
    intro res hpw hm hlt
    obtain ⟨i, w⟩ := p
    obtain ⟨hhead, htail⟩ := List.pairwise_cons.mp hpw
    rcases List.mem_cons.mp hm with heq | hmem
    · obtain ⟨rfl, rfl⟩ : j = i ∧ v = w := by
        simpa [Prod.ext_iff] using heq
      simp only [applyScatter]
      rw [applyScatter_getElem_of_ne j rest _ fun q hq => (hhead q hq).symm]
      exact List.getElem?_set_self (by simpa using hlt)
    · simp only [applyScatter]
      exact ih _ htail hmem (by simpa using hlt)

theorem validTexts_mem_iff {texts : List (List Char)} {i : Nat} {t : List Char} :
    (i, t) ∈ validTexts texts ↔ texts[i]? = some t ∧ isBlank t = false := by
  unfold validTexts
  rw [List.mem_filter, List.mk_mem_enum_iff_getElem?]
  simp

theorem validTexts_pairwise (texts : List (List Char)) :
    (validTexts texts).Pairwise fun p q => p.1 < q.1 := by
  unfold validTexts
  apply List.Pairwise.filter
  have h1 : List.Pairwise (· < ·) (texts.enum.map Prod.fst) := by
    rw [List.enum_map_fst]
    exact List.pairwise_lt_range _
  exact List.pairwise_map.mp h1

theorem processBatches_pure (f : List Char → List ℚ) :
    ∀ chunks : List (List (Nat × List Char)),
      processBatches (fun ts => .ok (ts.map f)) chunks
        = .ok (chunks.flatten.map (fun p => (p.1, f p.2)), chunks.length - 1) := by
  intro chunks
  induction chunks with
  | nil => rfl
  | cons batch rest ih =>
    simp only [processBatches, ih, List.flatten_cons, List.map_append,
      List.length_cons]
    have hzip : (batch.map (·.1)).zip ((batch.map (·.2)).map f)
        = batch.map fun p => (p.1, f p.2) := by
      rw [List.map_map]
      exact List.zip_map' (·.1) (f ∘ (·.2)) batch
    rw [hzip]
    congr 1
    cases rest with
    | nil => simp
    | cons r rs => simp; omega

/-- C2: with a provider that embeds each submitted text by a function
`f`, `createEmbeddings` returns a list of exactly the input length whose
position `i` holds `f texts[i]` for non-blank texts and the zero vector
for blank ones; moreover the non-blank texts are partitioned, in their
original relative order, into batches of at most `MAX_BATCH_SIZE` = 96
(the flattening of the batch list is exactly the filtered
position-tagged text list that is scattered back). -/
theorem createEmbeddings_pure (f : List Char → List ℚ) (texts : List (List Char)) :
    createEmbeddings (fun ts => .ok (ts.map f)) texts
        = .ok (texts.map fun t => if isBlank t then zeroVec else f t) ∧
      (∀ b ∈ chunkList MAX_BATCH_SIZE (validTexts texts),
        b.length ≤ MAX_BATCH_SIZE) ∧
      (chunkList MAX_BATCH_SIZE (validTexts texts)).flatten = validTexts texts := by
  refine ⟨?_, chunkList_length_le _ _, chunkList_flatten _ (by decide) _⟩
  unfold createEmbeddings createEmbeddingsT
  by_cases h0 : texts.length = 0
  · rw [if_pos h0]
    obtain rfl : texts = [] := List.length_eq_zero.mp h0
    rfl
  · rw [if_neg h0]
    by_cases hv : (validTexts texts).length = 0
    · rw [if_pos hv]
      have hval : validTexts texts = [] := List.length_eq_zero.mp hv
      have hall : ∀ t ∈ texts, isBlank t = true := by
        intro t ht
        by_contra hb
        obtain ⟨i, hilt, hig⟩ := List.getElem_of_mem ht
        have : (i, t) ∈ validTexts texts := validTexts_mem_iff.mpr
          ⟨by simp [List.getElem?_eq_getElem, hilt, hig],
           Bool.not_eq_true _ ▸ hb⟩
        rw [hval] at this
        simp at this
      simp only [Except.map]
      congr 1
      apply List.map_congr_left
      intro t ht
      rw [if_pos (hall t ht)]
      rfl
    · rw [if_neg hv]
      rw [processBatches_pure f (chunkList MAX_BATCH_SIZE (validTexts texts)),
        chunkList_flatten _ (by decide)]
      simp only [Except.map]
      congr 1
      set pairs := (validTexts texts).map fun p => (p.1, f p.2) with hpairs
      have hpw : pairs.Pairwise fun p q => p.1 ≠ q.1 := by
        rw [hpairs]
        apply List.pairwise_map.mpr
        exact (validTexts_pairwise texts).imp fun h => Nat.ne_of_lt h
      apply List.ext_getElem?
      intro j
      rw [List.getElem?_map, List.getElem?_map]
      by_cases hj : j < texts.length
      · obtain ⟨t, ht⟩ : ∃ t, texts[j]? = some t :=
          ⟨texts[j], by simp [List.getElem?_eq_getElem, hj]⟩
        rw [ht]
        by_cases hb : isBlank t = true
        · have hne : ∀ p ∈ pairs, p.1 ≠ j := by
            rintro ⟨i, w⟩ hp hij
            subst hij
            rw [hpairs] at hp
            obtain ⟨⟨i', u⟩, hu, huv⟩ := List.mem_map.mp hp
            obtain ⟨rfl, -⟩ : i' = i ∧ f u = w := by simpa [Prod.ext_iff] using huv
            obtain ⟨hu1, hu2⟩ := validTexts_mem_iff.mp hu
            rw [ht] at hu1
            obtain rfl : t = u := by simpa using hu1
            rw [hb] at hu2
            cases hu2
          rw [applyScatter_getElem_of_ne j pairs _ hne]
          simp only [List.getElem?_map, ht, hb, zeroVec, List.map_const',
            Option.map_some', Option.map_eq_some', if_true]
          exact ⟨none, by simp [hj], rfl⟩
        · have hbf : isBlank t = false := Bool.not_eq_true _ ▸ hb
          have hmem : (j, f t) ∈ pairs := by
            rw [hpairs]
            exact List.mem_map.mpr ⟨(j, t), validTexts_mem_iff.mpr ⟨ht, hbf⟩, rfl⟩
          rw [applyScatter_getElem_of_mem j (f t) pairs _ hpw hmem
            (by simpa using hj)]
          simp [hbf]
      · have hj' : texts.length ≤ j := Nat.le_of_not_lt hj
        rw [List.getElem?_eq_none
            (by simp only [applyScatter_length, List.length_map,
              List.length_replicate]; exact hj'),
          List.getElem?_eq_none (by simpa using hj')]
        rfl

set_option maxRecDepth 4000 in
/-- Witness for C2: a pure provider embedding each text as its length,
on one non-blank and one whitespace-only text; the single batch holding
the non-blank text respects the maximum batch size. -/
theorem createEmbeddings_pure_witness :
    createEmbeddings (fun ts => .ok (ts.map fun t => [(t.length : ℚ)]))
        ["hello world".toList, "   ".toList]
      = .ok [[(11 : ℚ)], List.replicate 1024 0] ∧
    [(0, "hello world".toList)].length ≤ MAX_BATCH_SIZE :=
  ⟨((createEmbeddings_pure (fun t => [(t.length : ℚ)])
      ["hello world".toList, "   ".toList]).1).trans (by decide),
   (createEmbeddings_pure (fun t => [(t.length : ℚ)])
      ["hello world".toList, "   ".toList]).2.1
     [(0, "hello world".toList)] (by decide)⟩

/-! ### Inversion lemmas for the user-mention matcher -/

theorem all_append_split {p : Char → Bool} {run : List Char} {x : Char}
    {y : List Char} (hrun : ∀ c ∈ run, p c = true) (hx : p x = false) :
    (run ++ x :: y).takeWhile p = run ∧ (run ++ x :: y).dropWhile p = x :: y := by
  induction run with
  | nil =>
    constructor
    · simp [List.takeWhile_cons, hx]
    · simp [List.dropWhile_cons, hx]
  | cons a rs ih =>
    have ha : p a = true := hrun a (List.mem_cons_self ..)
    obtain ⟨ht, hd⟩ := ih fun c hc => hrun c (List.mem_cons_of_mem _ hc)
    constructor
    · rw [List.cons_append, List.takeWhile_cons_of_pos ha, ht]
    · rw [List.cons_append, List.dropWhile_cons_of_pos ha, hd]

theorem afterRunLit_of_shape {p : Char → Bool} {post1 : Char} {run t2 : List Char}
    (hne : run ≠ []) (hrun : ∀ c ∈ run, p c = true) (hpost : p post1 = false) :
    afterRunLit p [post1] (run ++ post1 :: t2) = some (run, t2) := by
  obtain ⟨ht, hd⟩ := all_append_split hrun hpost
  have hie : ((run ++ post1 :: t2).takeWhile p).isEmpty = false := by
    rw [ht]
    simpa [List.isEmpty_iff] using hne
  simp only [afterRunLit, hie, Bool.false_eq_true, if_false, hd]
  rw [ht]
  simp [stripLit]

theorem afterRunLit_some_shape {p : Char → Bool} {post1 : Char}
    {s run t : List Char} (h : afterRunLit p [post1] s = some (run, t)) :
    s = run ++ post1 :: t ∧ run ≠ [] ∧ ∀ c ∈ run, p c = true := by
  obtain ⟨hrun, hne, hstrip⟩ := afterRunLit_some h
  have hq : s.dropWhile p = post1 :: t := by
    cases hq : s.dropWhile p with
    | nil => rw [hq] at hstrip; simp [stripLit] at hstrip
    | cons d ds =>
      rw [hq] at hstrip
      simp only [stripLit] at hstrip
      split at hstrip
      · next hdp =>
        simp only [stripLit, Option.some.injEq] at hstrip
        rw [hdp, hstrip]
      · exact absurd hstrip (by simp)
  refine ⟨?_, hne, ?_⟩
  · conv_lhs => rw [← List.takeWhile_append_dropWhile (p := p) (l := s)]
    rw [← hrun, hq]
  · intro c hc
    rw [hrun] at hc
    have := List.all_takeWhile (p := p) (l := s)
    rw [List.all_eq_true] at this
    exact this c hc

theorem matchUserMention_ne_lt {c : Char} {rest : List Char} (h : ¬ c = '<') :
    matchUserMention (c :: rest) = none := by
  rw [matchUserMention.eq_def]
  split
  · next heq =>
    exact absurd (by injection heq) h
  · rfl

theorem matchUserMention_some {s r t : List Char}
    (h : matchUserMention s = some (r, t)) :
    r = "@user".toList ∧ ∃ s2 run, s = '<' :: '@' :: s2 ∧
      afterRunLit isMentionChar ['>'] s2 = some (run, t) := by
  rw [matchUserMention.eq_def] at h
  split at h
  · next s2 =>
    split at h
    · next run rest harl =>
      obtain ⟨h1, h2⟩ := Prod.mk.injEq .. ▸ Option.some.injEq .. ▸ h
      exact ⟨h1.symm, s2, run, rfl, h2 ▸ harl⟩
    · exact absurd h (by simp)
  · exact absurd h (by simp)

theorem matchUserMention_of_shape {run t2 : List Char} (hne : run ≠ [])
    (hrun : ∀ c ∈ run, isMentionChar c = true) :
    matchUserMention ('<' :: '@' :: (run ++ '>' :: t2))
      = some ("@user".toList, t2) := by
  have := @afterRunLit_of_shape isMentionChar '>' run t2 hne hrun (by decide)
  simp only [matchUserMention, this]

theorem hasMatch_cons {m : Matcher} {c : Char} {rest : List Char} :
    hasMatch m (c :: rest) = ((m (c :: rest)).isSome || hasMatch m rest) := rfl

/-- Positions inside a prefix with no `<` cannot start a user mention. -/
theorem hasMatch_userMention_append {xs u : List Char}
    (hxs : ∀ c ∈ xs, ¬ c = '<') :
    hasMatch matchUserMention (xs ++ u) = hasMatch matchUserMention u := by
  induction xs with
  | nil => rfl
  | cons a xs ih =>
    rw [List.cons_append, hasMatch_cons,
      matchUserMention_ne_lt (hxs a (List.mem_cons_self ..)),
      ih fun c hc => hxs c (List.mem_cons_of_mem _ hc)]
    simp

/-! ### The user-mention pass is complete: its own output never
contains a user mention.  The key step is that an identifier run
followed by a closing bracket in the output must have been present
verbatim in the input (the replacement text starts with an `@` and
contains neither identifier-class characters at its start nor `>`). -/

theorem scanU_run_reflect :
    ∀ (run : List Char), (∀ c ∈ run, isMentionChar c = true) →
      ∀ (t w : List Char), replaceUserMentions t = run ++ '>' :: w →
        ∃ t2, t = run ++ '>' :: t2 := by
  intro run
  induction run with
  | nil =>
    intro _ t w h
    cases t with
    | nil =>
      rw [replaceUserMentions, scanReplace_nil] at h
      exact absurd h (by simp)
    | cons c rest =>
      cases hm : matchUserMention (c :: rest) with
      | some p =>
        obtain ⟨p1, p2⟩ := p
        obtain ⟨hp1, -⟩ := matchUserMention_some hm
        rw [replaceUserMentions,
          scanReplace_match matchUserMention_shrinking hm, hp1] at h
        exact absurd h (by simp)
      | none =>
        rw [replaceUserMentions, scanReplace_skip hm] at h
        obtain ⟨rfl, -⟩ : c = '>' ∧ replaceUserMentions rest = w := by
          simpa using h
        exact ⟨rest, rfl⟩
  | cons r rs ih =>
    intro hmem t w h
    have hrne : ¬ r = '@' := by
      have hr := hmem r (List.mem_cons_self ..)
      intro hr'
      rw [hr'] at hr
      exact absurd hr (by decide)
    cases t with
    | nil =>
      rw [replaceUserMentions, scanReplace_nil] at h
      exact absurd h (by simp)
    | cons c rest =>
      cases hm : matchUserMention (c :: rest) with
      | some p =>
        obtain ⟨p1, p2⟩ := p
        obtain ⟨hp1, -⟩ := matchUserMention_some hm
        rw [replaceUserMentions,
          scanReplace_match matchUserMention_shrinking hm, hp1] at h
        have : '@' = r := by
          have := congrArg List.head? h
          simpa using this
        exact absurd this.symm hrne
      | none =>
        rw [replaceUserMentions, scanReplace_skip hm] at h
        obtain ⟨rfl, h2⟩ : c = r ∧ replaceUserMentions rest = rs ++ '>' :: w := by
          simpa using h
        obtain ⟨t2, ht2⟩ :=
          ih (fun c hc => hmem c (List.mem_cons_of_mem _ hc)) rest w h2
        exact ⟨t2, by rw [ht2, List.cons_append]⟩

theorem replaceUserMentions_clean_aux :
    ∀ (N : Nat) (s : List Char), s.length ≤ N →
      hasMatch matchUserMention (replaceUserMentions s) = false := by
  intro N
  induction N with
  | zero =>
    intro s h
    obtain rfl : s = [] := List.length_eq_zero.mp (Nat.le_zero.mp h)
    rfl
  | succ N ih =>
    intro s hs
    cases s with
    | nil => rfl
    | cons c rest =>
      cases hm : matchUserMention (c :: rest) with
      | some p =>
        obtain ⟨r, t⟩ := p
        obtain ⟨hr, s2, run, hshape, harl⟩ := matchUserMention_some hm
        rw [replaceUserMentions,
          scanReplace_match matchUserMention_shrinking hm, hr]
        have ht : t.length ≤ N := by
          have := matchUserMention_shrinking _ _ _ hm
          simp only [List.length_cons] at this hs
          omega
        rw [hasMatch_userMention_append (by decide)]
        exact ih t ht
      | none =>
        rw [replaceUserMentions, scanReplace_skip hm]
        show hasMatch matchUserMention (c :: replaceUserMentions rest) = false
        have hrec : hasMatch matchUserMention (replaceUserMentions rest) = false :=
          ih rest (by simp only [List.length_cons] at hs; omega)
        suffices hM : matchUserMention (c :: replaceUserMentions rest) = none by
          rw [hasMatch_cons, hM, hrec]
          rfl
        by_cases hc : c = '<'
        · subst hc
          cases hM2 : matchUserMention ('<' :: replaceUserMentions rest) with
          | none => rfl
          | some q =>
            exfalso
            obtain ⟨q1, q2⟩ := q
            obtain ⟨-, s2', run', hshape', harl'⟩ := matchUserMention_some hM2
            have hsr : replaceUserMentions rest = '@' :: s2' := by
              have h3 := congrArg List.tail hshape'
              simpa using h3
            obtain ⟨hshape2, hrune, hrunmem⟩ := afterRunLit_some_shape harl'
            cases rest with
            | nil =>
              rw [replaceUserMentions, scanReplace_nil] at hsr
              exact absurd hsr (by simp)
            | cons d rest2 =>
              cases hm2 : matchUserMention (d :: rest2) with
              | some p2 =>
                obtain ⟨p21, p22⟩ := p2
                obtain ⟨hp21, -⟩ := matchUserMention_some hm2
                rw [replaceUserMentions,
                  scanReplace_match matchUserMention_shrinking hm2, hp21] at hsr
                have htl : ('u' :: 's' :: 'e' :: 'r' :: replaceUserMentions p22)
                    = run' ++ '>' :: q2 := by
                  rw [hshape2] at hsr
                  have h3 := congrArg List.tail hsr
                  simpa using h3
                obtain ⟨u0, run'', hrr⟩ : ∃ u0 run'', run' = u0 :: run'' := by
                  cases run' with
                  | nil => exact absurd rfl hrune
                  | cons a b => exact ⟨a, b, rfl⟩
                rw [hrr] at htl
                have hu0 : 'u' = u0 := by
                  have h4 := congrArg List.head? htl
                  simpa using h4
                have h5 := hrunmem u0 (by rw [hrr]; exact List.mem_cons_self ..)
                rw [← hu0] at h5
                exact absurd h5 (by decide)
              | none =>
                rw [replaceUserMentions, scanReplace_skip hm2] at hsr
                obtain ⟨rfl, hsr2⟩ : d = '@' ∧ replaceUserMentions rest2 = s2' := by
                  simpa using hsr
                rw [hshape2] at hsr2
                obtain ⟨t3, ht3⟩ := scanU_run_reflect run' hrunmem rest2 q2 hsr2
                have hcontra : matchUserMention ('<' :: '@' :: rest2)
                    = some ("@user".toList, t3) := by
                  rw [ht3]
                  exact matchUserMention_of_shape hrune hrunmem
                rw [hm] at hcontra
                exact absurd hcontra (by simp)
        · exact matchUserMention_ne_lt hc

theorem replaceUserMentions_clean (s : List Char) :
    hasMatch matchUserMention (replaceUserMentions s) = false :=
  replaceUserMentions_clean_aux s.length s le_rfl

/-! ### Whitespace shape of the normalization output -/

theorem noAdjWs_cons {a : Char} {l : List Char} :
    noAdjWs (a :: l) = ((match l.head? with
      | some b => !(isWs a && isWs b)
      | none => true) && noAdjWs l) := by
  cases l with
  | nil => simp [noAdjWs]
  | cons b t => simp [noAdjWs]

theorem noAdjWs_tail {a : Char} {l : List Char} (h : noAdjWs (a :: l) = true) :
    noAdjWs l = true := by
  rw [noAdjWs_cons] at h
  exact (Bool.and_eq_true_iff.mp h).2

theorem onlySpaces_cons {a : Char} {l : List Char} :
    onlySpaces (a :: l) = ((!isWs a || a = ' ') && onlySpaces l) := by
  simp [onlySpaces]

theorem dropWhile_ws_head {l : List Char} {d : Char} {t : List Char}
    (h : l.dropWhile isWs = d :: t) : isWs d = false := by
  induction l with
  | nil => simp at h
  | cons a l ih =>
    by_cases ha : isWs a = true
    · rw [List.dropWhile_cons_of_pos ha] at h
      exact ih h
    · rw [List.dropWhile_cons_of_neg (by simpa using ha)] at h
      obtain ⟨rfl, -⟩ : a = d ∧ l = t := by simpa using h
      simpa using ha

theorem collapseWs_nil : collapseWs [] = [] := rfl

theorem collapseWs_cons_not_ws {c : Char} {rest : List Char}
    (h : isWs c = false) : collapseWs (c :: rest) = c :: collapseWs rest := by
  unfold collapseWs
  rw [scanReplace_skip (by simp [matchWsRun, h])]

theorem collapseWs_cons_ws {c : Char} {rest : List Char} (h : isWs c = true) :
    collapseWs (c :: rest) = ' ' :: collapseWs (rest.dropWhile isWs) := by
  unfold collapseWs
  rw [scanReplace_match matchWsRun_shrinking
    (show matchWsRun (c :: rest) = some ([' '], rest.dropWhile isWs) by
      simp [matchWsRun, h, List.dropWhile_cons_of_pos h])]
  rfl

theorem collapseWs_props_aux :
    ∀ (N : Nat) (l : List Char), l.length ≤ N →
      onlySpaces (collapseWs l) = true ∧ noAdjWs (collapseWs l) = true := by
  intro N
  induction N with
  | zero =>
    intro l h
    obtain rfl : l = [] := List.length_eq_zero.mp (Nat.le_zero.mp h)
    exact ⟨rfl, rfl⟩
  | succ N ih =>
    intro l hl
    cases l with
    | nil => exact ⟨rfl, rfl⟩
    | cons c rest =>
      by_cases hc : isWs c = true
      · rw [collapseWs_cons_ws hc]
        have hd : (rest.dropWhile isWs).length ≤ N := by
          have := dropWhile_length_le isWs rest
          simp only [List.length_cons] at hl
          omega
        obtain ⟨h1, h2⟩ := ih (rest.dropWhile isWs) hd
        refine ⟨by rw [onlySpaces_cons]; simp [h1], ?_⟩
        rw [noAdjWs_cons]
        refine Bool.and_eq_true_iff.mpr ⟨?_, h2⟩
        cases hdw : rest.dropWhile isWs with
        | nil => simp [collapseWs_nil, hdw]
        | cons d t =>
          have hdws : isWs d = false := dropWhile_ws_head hdw
          rw [collapseWs_cons_not_ws hdws]
          simp [hdws]
      · have hc' : isWs c = false := by simpa using hc
        rw [collapseWs_cons_not_ws hc']
        have hr : rest.length ≤ N := by
          simp only [List.length_cons] at hl
          omega
        obtain ⟨h1, h2⟩ := ih rest hr
        refine ⟨by rw [onlySpaces_cons]; simp [h1, hc'], ?_⟩
        rw [noAdjWs_cons]
        refine Bool.and_eq_true_iff.mpr ⟨?_, h2⟩
        cases (collapseWs rest).head? with
        | none => rfl
        | some b => simp [hc']

theorem collapseWs_onlySpaces (l : List Char) :
    onlySpaces (collapseWs l) = true :=
  (collapseWs_props_aux l.length l le_rfl).1

theorem collapseWs_noAdjWs (l : List Char) :
    noAdjWs (collapseWs l) = true :=
  (collapseWs_props_aux l.length l le_rfl).2

theorem noAdjWs_dropWhile {p : Char → Bool} {l : List Char}
    (h : noAdjWs l = true) : noAdjWs (l.dropWhile p) = true := by
  induction l with
  | nil => exact h
  | cons a l ih =>
    by_cases ha : p a = true
    · rw [List.dropWhile_cons_of_pos ha]
      exact ih (noAdjWs_tail h)
    · rwa [List.dropWhile_cons_of_neg (by simpa using ha)]

theorem trimEnd_head? :
    ∀ l : List Char, trimEnd l = [] ∨ (trimEnd l).head? = l.head? := by
  intro l
  induction l with
  | nil => exact Or.inl rfl
  | cons c rest ih =>
    cases htr : trimEnd rest with
    | nil =>
      by_cases hc : isWs c = true
      · exact Or.inl (by simp [trimEnd, htr, hc])
      · refine Or.inr ?_
        simp [trimEnd, htr, hc]
    | cons d r2 =>
      refine Or.inr ?_
      simp [trimEnd, htr]

theorem noAdjWs_trimEnd {l : List Char} (h : noAdjWs l = true) :
    noAdjWs (trimEnd l) = true := by
  induction l with
  | nil => exact h
  | cons c rest ih =>
    have htail := ih (noAdjWs_tail h)
    cases htr : trimEnd rest with
    | nil =>
      by_cases hc : isWs c = true
      · simp [trimEnd, htr, hc, noAdjWs]
      · simp [trimEnd, htr, hc, noAdjWs]
    | cons d r2 =>
      have hres : trimEnd (c :: rest) = c :: d :: r2 := by
        simp [trimEnd, htr]
      rw [hres]
      rw [htr] at htail
      have hhead : rest.head? = some d := by
        rcases trimEnd_head? rest with h1 | h1
        · rw [htr] at h1; cases h1
        · rw [htr] at h1; exact h1.symm
      rw [noAdjWs_cons] at h ⊢
      rw [hhead] at h
      simp only [List.head?_cons]
      exact Bool.and_eq_true_iff.mpr
        ⟨(Bool.and_eq_true_iff.mp h).1, htail⟩

theorem trimEnd_sublist : ∀ l : List Char, List.Sublist (trimEnd l) l := by
  intro l
  induction l with
  | nil => exact List.Sublist.refl _
  | cons c rest ih =>
    cases htr : trimEnd rest with
    | nil =>
      by_cases hc : isWs c = true
      · simp [trimEnd, htr, hc]
      · simp only [trimEnd, htr, hc, Bool.false_eq_true, if_false]
        exact (List.nil_sublist rest).cons₂ c
    | cons d r2 =>
      simp only [trimEnd, htr]
      exact (htr ▸ ih).cons₂ c

theorem sublist_all {p : Char → Bool} {l1 l2 : List Char}
    (hs : List.Sublist l1 l2) (h : l2.all p = true) : l1.all p = true := by
  rw [List.all_eq_true] at h ⊢
  exact fun x hx => h x (hs.subset hx)

theorem trimEnd_getLast :
    ∀ l : List Char, trimEnd l = [] ∨
      ∃ c, (trimEnd l).getLast? = some c ∧ isWs c = false := by
  intro l
  induction l with
  | nil => exact Or.inl rfl
  | cons c rest ih =>
    cases htr : trimEnd rest with
    | nil =>
      by_cases hc : isWs c = true
      · exact Or.inl (by simp [trimEnd, htr, hc])
      · refine Or.inr ⟨c, ?_, by simpa using hc⟩
        simp [trimEnd, htr, hc]
    | cons d r2 =>
      rcases ih with h1 | ⟨e, he1, he2⟩
      · rw [htr] at h1; cases h1
      · refine Or.inr ⟨e, ?_, he2⟩
        have hres : trimEnd (c :: rest) = c :: d :: r2 := by
          simp [trimEnd, htr]
        rw [hres, List.getLast?_cons_cons, ← htr]
        exact he1

theorem trimList_props {l : List Char}
    (hsp : onlySpaces l = true) (hadj : noAdjWs l = true) :
    onlySpaces (trimList l) = true ∧ noAdjWs (trimList l) = true ∧
      (∀ c, (trimList l).head? = some c → isWs c = false) ∧
      (∀ c, (trimList l).getLast? = some c → isWs c = false) := by
  unfold trimList
  refine ⟨?_, ?_, ?_, ?_⟩
  · exact sublist_all ((trimEnd_sublist _).trans (List.dropWhile_sublist _)) hsp
  · exact noAdjWs_trimEnd (noAdjWs_dropWhile hadj)
  · intro c hc
    rcases trimEnd_head? (l.dropWhile isWs) with h1 | h1
    · rw [h1] at hc; cases hc
    · rw [h1] at hc
      cases hdw : l.dropWhile isWs with
      | nil => rw [hdw] at hc; cases hc
      | cons d t =>
        rw [hdw] at hc
        obtain rfl : d = c := by simpa using hc
        exact dropWhile_ws_head hdw
  · intro c hc
    rcases trimEnd_getLast (l.dropWhile isWs) with h1 | ⟨e, he1, he2⟩
    · rw [h1] at hc; cases hc
    · rw [he1] at hc
      obtain rfl : e = c := by simpa using hc
      exact he2

/-- The whitespace shape of every `preprocessText` output: only plain
spaces, no two adjacent whitespace characters, none at either end. -/
theorem preprocessText_ws_props (s : List Char) :
    onlySpaces (preprocessText s) = true ∧ noAdjWs (preprocessText s) = true ∧
      (∀ c, (preprocessText s).head? = some c → isWs c = false) ∧
      (∀ c, (preprocessText s).getLast? = some c → isWs c = false) := by
  by_cases h : (normalizeText s).length < 10
  · have hp : preprocessText s = [] := by simp [preprocessText, h]
    rw [hp]
    exact ⟨rfl, rfl, by rintro c ⟨⟩, by rintro c ⟨⟩⟩
  · have hp : preprocessText s = normalizeText s := by simp [preprocessText, h]
    rw [hp]
    show onlySpaces (trimList (collapseWs _)) = true ∧
      noAdjWs (trimList (collapseWs _)) = true ∧ _ ∧ _
    exact trimList_props (collapseWs_onlySpaces _) (collapseWs_noAdjWs _)

/-! ### Identity of the passes on already-normalized text -/

theorem collapseWs_id_aux :
    ∀ (N : Nat) (l : List Char), l.length ≤ N → onlySpaces l = true →
      noAdjWs l = true → collapseWs l = l := by
  intro N
  induction N with
  | zero =>
    intro l h _ _
    obtain rfl : l = [] := List.length_eq_zero.mp (Nat.le_zero.mp h)
    rfl
  | succ N ih =>
    intro l hl hsp hadj
    cases l with
    | nil => rfl
    | cons c rest =>
      have hspr : onlySpaces rest = true := by
        rw [onlySpaces_cons] at hsp
        exact (Bool.and_eq_true_iff.mp hsp).1.symm ▸ (Bool.and_eq_true_iff.mp hsp).2
      have hadjr : noAdjWs rest = true := noAdjWs_tail hadj
      have hrest : rest.length ≤ N := by
        simp only [List.length_cons] at hl
        omega
      by_cases hc : isWs c = true
      · have hsp' : c = ' ' := by
          rw [onlySpaces_cons] at hsp
          have := (Bool.and_eq_true_iff.mp hsp).1
          simpa [hc] using this
        have hdw : rest.dropWhile isWs = rest := by
          cases rest with
          | nil => rfl
          | cons b t =>
            rw [noAdjWs_cons] at hadj
            have hb := (Bool.and_eq_true_iff.mp hadj).1
            simp only [List.head?_cons, hc, Bool.true_and] at hb
            exact List.dropWhile_cons_of_neg (by simpa using hb)
        rw [collapseWs_cons_ws hc, hdw, ih rest hrest hspr hadjr, hsp']
      · rw [collapseWs_cons_not_ws (by simpa using hc),
          ih rest hrest hspr hadjr]

theorem collapseWs_id {l : List Char} (hsp : onlySpaces l = true)
    (hadj : noAdjWs l = true) : collapseWs l = l :=
  collapseWs_id_aux l.length l le_rfl hsp hadj

theorem dropWhile_id_of_head {l : List Char}
    (hh : ∀ c, l.head? = some c → isWs c = false) : l.dropWhile isWs = l := by
  cases l with
  | nil => rfl
  | cons c rest =>
    exact List.dropWhile_cons_of_neg (by simpa using hh c rfl)

theorem trimEnd_id :
    ∀ l : List Char, (∀ c, l.getLast? = some c → isWs c = false) →
      trimEnd l = l := by
  intro l
  induction l with
  | nil => intro _; rfl
  | cons c rest ih =>
    intro hlast
    cases rest with
    | nil =>
      have := hlast c rfl
      simp [trimEnd, this]
    | cons b t =>
      have hr : trimEnd (b :: t) = b :: t := by
        apply ih
        intro e he
        exact hlast e (by rwa [List.getLast?_cons_cons])
      show (match trimEnd (b :: t) with
        | [] => if isWs c = true then [] else [c]
        | r => c :: r) = c :: b :: t
      rw [hr]

theorem trimList_id {l : List Char}
    (hh : ∀ c, l.head? = some c → isWs c = false)
    (hl : ∀ c, l.getLast? = some c → isWs c = false) : trimList l = l := by
  unfold trimList
  rw [dropWhile_id_of_head hh, trimEnd_id l hl]

/-! ### Claim theorems C7 and C9 -/

/-- Counterexample for C7 as stated: concrete inputs whose final
`preprocessText` output still contains user-mention markup, plain
channel-mention markup, a bare URL and an emoji code, each recreated by
a later pass out of fragments the earlier single-pass replacements left
behind or glued together. -/
theorem preprocess_markup_counterexample :
    preprocessText "<#C1|a<>@ABCDEF> hello".toList
        = "#a<@ABCDEF> hello".toList ∧
      hasMatch matchUserMention
        (preprocessText "<#C1|a<>@ABCDEF> hello".toList) = true ∧
      hasMatch matchChannelPlain
        (preprocessText "<#C1:x:> hello world".toList) = true ∧
      hasMatch matchBareLink
        (preprocessText "ht:y:tps://e.co hello".toList) = true ∧
      hasMatch matchEmoji
        (preprocessText "::x:a: hello world".toList) = true := by
  decide

/-- C7 (amended): the user-mention pass itself is complete (its output
never contains user-mention markup, so mentions present in the input are
rewritten to the `@user` placeholder), and the whitespace of every
`preprocessText` output is collapsed: no two consecutive whitespace
characters remain and no leading or trailing whitespace remains.  The
markup-freedom of the final output claimed for channel mentions, links
and emoji codes does not hold in general, because later passes can
recreate such markup (see the counterexample). -/
theorem preprocess_markup_and_ws (s : List Char) :
    hasMatch matchUserMention (replaceUserMentions s) = false ∧
      noAdjWs (preprocessText s) = true ∧
      (∀ c, (preprocessText s).head? = some c → isWs c = false) ∧
      (∀ c, (preprocessText s).getLast? = some c → isWs c = false) :=
  ⟨replaceUserMentions_clean s, (preprocessText_ws_props s).2.1,
    (preprocessText_ws_props s).2.2.1, (preprocessText_ws_props s).2.2.2⟩

/-- Witness for C7 (amended) at concrete inputs, discharging the head
and last hypotheses at the concrete output characters. -/
theorem preprocess_markup_and_ws_witness :
    hasMatch matchUserMention
        (replaceUserMentions "hello <@U123ABC> world".toList) = false ∧
      noAdjWs (preprocessText "hello   world  x".toList) = true ∧
      isWs 'h' = false ∧ isWs 'x' = false :=
  ⟨(preprocess_markup_and_ws "hello <@U123ABC> world".toList).1,
   (preprocess_markup_and_ws "hello   world  x".toList).2.1,
   (preprocess_markup_and_ws "hello   world  x".toList).2.2.1 'h' (by decide),
   (preprocess_markup_and_ws "hello   world  x".toList).2.2.2 'x' (by decide)⟩

/-- Counterexample for C9 as stated: an input on which `preprocessText`
is not idempotent (the emoji pass glues a URL together, which only the
second application rewrites to the link placeholder). -/
theorem preprocess_not_idempotent :
    preprocessText (preprocessText "ht:y:tps://e.co hello".toList)
      ≠ preprocessText "ht:y:tps://e.co hello".toList := by
  decide

/-- C9 (amended): `preprocessText` is idempotent at every input whose
output contains no residual occurrence of the six normalization
patterns; on such outputs (including the empty-string result for
too-short inputs) a second application changes nothing.  Without that
proviso idempotence fails, because one pass can recreate markup that an
earlier pass would have rewritten (see the counterexample). -/
theorem preprocess_idem (s : List Char)
    (h : noResidualMarkup (preprocessText s) = true) :
    preprocessText (preprocessText s) = preprocessText s := by
  by_cases hlen : (normalizeText s).length < 10
  · have hps : preprocessText s = [] := by simp [preprocessText, hlen]
    rw [hps]
    rfl
  · have hps : preprocessText s = normalizeText s := by simp [preprocessText, hlen]
    rw [hps] at h ⊢
    obtain ⟨hsp, hadj, hhead, hlast⟩ := hps ▸ preprocessText_ws_props s
    simp only [noResidualMarkup, Bool.not_eq_true', Bool.or_eq_false_iff] at h
    obtain ⟨⟨⟨⟨⟨h1, h2⟩, h3⟩, h4⟩, h5⟩, h6⟩ := h
    have e1 : replaceUserMentions (normalizeText s) = normalizeText s :=
      scanReplace_of_not_hasMatch _ h1
    have e2 : replaceChannelNamed (normalizeText s) = normalizeText s :=
      scanReplace_of_not_hasMatch _ h2
    have e3 : replaceChannelPlain (normalizeText s) = normalizeText s :=
      scanReplace_of_not_hasMatch _ h3
    have e4 : replaceAngleLinks (normalizeText s) = normalizeText s :=
      scanReplace_of_not_hasMatch _ h4
    have e5 : replaceBareLinks (normalizeText s) = normalizeText s :=
      scanReplace_of_not_hasMatch _ h5
    have e6 : removeEmojiCodes (normalizeText s) = normalizeText s :=
      scanReplace_of_not_hasMatch _ h6
    have e7 : collapseWs (normalizeText s) = normalizeText s :=
      collapseWs_id hsp hadj
    have e8 : trimList (normalizeText s) = normalizeText s :=
      trimList_id hhead hlast
    have hnorm : normalizeText (normalizeText s) = normalizeText s := by
      show trimList (collapseWs (removeEmojiCodes (replaceBareLinks
        (replaceAngleLinks (replaceChannelPlain (replaceChannelNamed
          (replaceUserMentions (normalizeText s)))))))) = normalizeText s
      rw [e1, e2, e3, e4, e5, e6, e7, e8]
    simp only [preprocessText, hnorm]
    rw [if_neg hlen]

/-- Witness for C9 (amended) at a concrete markup-free input. -/
theorem preprocess_idem_witness :
    preprocessText (preprocessText "we chose Redis for caching".toList)
      = preprocessText "we chose Redis for caching".toList :=
  preprocess_idem "we chose Redis for caching".toList (by decide)

end ClawdBot
